import Mathlib

/-!
# Verification of the Kilter-heatmap core logic (`src/script.js`)

Shallow embedding of the aggregation and classification functions of the
heatmap script. JavaScript objects (string-keyed maps) are modelled as
association lists `List (String × α)`; object key access `m[k]` is first-match
lookup (`alistGet`), and assignment `m[k] = v` replaces the first matching
entry or appends (`alistSet`), which matches JS object insertion-order
semantics. Counts are `Nat` (the data holds non-negative integers).
-/

namespace KilterHeatmap

/-- First-match lookup in an association list: JS `m[k]`, `none` = `undefined`. -/
def alistGet {α : Type} (m : List (String × α)) (k : String) : Option α :=
  match m with
  | [] => none
  | (k', v) :: rest => if k' = k then some v else alistGet rest k

/-- JS `m[k] = v`: replace the first entry with key `k`, or append if absent. -/
def alistSet {α : Type} (m : List (String × α)) (k : String) (v : α) :
    List (String × α) :=
  match m with
  | [] => [(k, v)]
  | (k', v') :: rest =>
    if k' = k then (k', v) :: rest else (k', v') :: alistSet rest k v

/-- Grade label ↦ usage count (a JS object in the data). -/
abbrev GradeCounts := List (String × Nat)

/-- A boulder record; the core only reads its `grade` field. -/
structure BoulderInfo where
  grade : String
deriving DecidableEq, Repr

/-- Per-angle data: optional `holds` and `boulders` sub-maps
(`angleData.holds` may be absent, which JS reads as `undefined`). -/
structure AngleData where
  holds : Option (List (String × GradeCounts))
  boulders : Option (List (String × BoulderInfo))
deriving DecidableEq, Repr

/-- Angle label ↦ `AngleData` (the top-level `gradeCountMap` object). -/
abbrev AngleUsageMap := List (String × AngleData)

/-- The 5-tuple of quantile cutoffs `[p0, p30, p50, p85, p95]`
(the array returned by `computeQuantiles`; `qi` is `quantiles[i]`). -/
structure Quantiles where
  q0 : Nat
  q1 : Nat
  q2 : Nat
  q3 : Nat
  q4 : Nat
deriving DecidableEq, Repr

/-- Embedding of `getPercentileColor(value, quantiles)` from `script.js`:
`value === 0` gives `"transparent"`, otherwise the first cutoff (from the top)
that `value` reaches decides the bucket color. -/
def getPercentileColor (value : Nat) (quantiles : Quantiles) : String :=
  if value = 0 then "transparent"
  else if quantiles.q4 ≤ value then "#bd0026"
  else if quantiles.q3 ≤ value then "#fd8d3c"
  else if quantiles.q2 ≤ value then "#fecc5c"
  else if quantiles.q1 ≤ value then "#ffffb2"
  else "#d4f7b2"

/-- Embedding of `computeQuantiles(values)` from `script.js`. The JS sorts a spread copy
ascending (`[...values].sort((a, b) => a - b)`) and indexes it at
`Math.floor(q * sorted.length)` for `q ∈ {0, 0.3, 0.5, 0.85, 0.95}`.
The float products `0.3*n`, `0.5*n`, `0.85*n`, `0.95*n` agree with the exact
rationals `3n/10`, `n/2`, `17n/20`, `19n/20` after `floor` for every feasible
`n` (the relative float error is far below the distance to the nearest
integer boundary), so the indices are embedded as exact `Nat` floors. -/
def computeQuantiles (values : List Nat) : Quantiles :=
  if values.length = 0 then ⟨0, 0, 0, 0, 0⟩
  else
    let sorted := List.insertionSort (· ≤ ·) values
    ⟨sorted.getD 0 0,
     sorted.getD (3 * sorted.length / 10) 0,
     sorted.getD (5 * sorted.length / 10) 0,
     sorted.getD (85 * sorted.length / 100) 0,
     sorted.getD (95 * sorted.length / 100) 0⟩

end KilterHeatmap

namespace KilterHeatmap

/-- Innermost accumulation of `mergeAllAngles`: fold one hold's `grades` object
into that hold's running totals
(`merged[holdId][grade] = (merged[holdId][grade] || 0) + count`). -/
def addGradeCounts (acc : GradeCounts) (grades : GradeCounts) : GradeCounts :=
  grades.foldl (fun acc gc => alistSet acc gc.1 ((alistGet acc gc.1).getD 0 + gc.2)) acc

/-- Middle loop of `mergeAllAngles`: fold one angle's `holds` object into the
running `merged` object. -/
def mergeHoldsInto (merged : List (String × GradeCounts))
    (holds : List (String × GradeCounts)) : List (String × GradeCounts) :=
  holds.foldl
    (fun merged hg => alistSet merged hg.1 (addGradeCounts ((alistGet merged hg.1).getD []) hg.2))
    merged

/-- Embedding of `mergeAllAngles(gradeCountMap)` from `script.js`: additive merge of every
angle's `holds` sub-map; angles without `holds` are skipped. -/
def mergeAllAngles (gradeCountMap : AngleUsageMap) : List (String × GradeCounts) :=
  gradeCountMap.foldl
    (fun merged ad =>
      match ad.2.holds with
      | none => merged
      | some holds => mergeHoldsInto merged holds)
    []

/-- The `activeMap` selection in `drawBoardWithNormalizedHeatmap`
(`selectedAngle === "all" ? mergeAllAngles(gradeCountMap)
 : gradeCountMap[selectedAngle]?.holds || {}`). -/
def selectActiveMap (gradeCountMap : AngleUsageMap) (selectedAngle : String) :
    List (String × GradeCounts) :=
  if selectedAngle = "all" then mergeAllAngles gradeCountMap
  else
    match alistGet gradeCountMap selectedAngle with
    | none => []
    | some ad => ad.holds.getD []

/-- One hold's usage under a grade filter, from the `usagePerHold` loop body in
`drawBoardWithNormalizedHeatmap`: `filteredGrades` is all counts when
`selectedGrade === "all"`, else the single `gradeCounts[selectedGrade] || 0`;
then `reduce((a, b) => a + b, 0)`. -/
def holdUsage (gradeCounts : GradeCounts) (selectedGrade : String) : Nat :=
  let filteredGrades :=
    if selectedGrade = "all" then gradeCounts.map Prod.snd
    else [(alistGet gradeCounts selectedGrade).getD 0]
  filteredGrades.foldl (· + ·) 0

/-- The `usagePerHold` object built in `drawBoardWithNormalizedHeatmap`:
for each `[holdId, gradeCounts]` entry of `activeMap`, store the filtered sum. -/
def usagePerHold (activeMap : List (String × GradeCounts)) (selectedGrade : String) :
    List (String × Nat) :=
  activeMap.foldl (fun acc hg => alistSet acc hg.1 (holdUsage hg.2 selectedGrade)) []

/-- Inner loop of `countBouldersWithGrade`: JS `for..in` over `data.boulders`
with lookup visits the entries of the object, incrementing on a grade match
(`selectedGrade === "all" || boulder.grade === selectedGrade`). -/
def countInBoulders (selectedGrade : String) (bs : List (String × BoulderInfo))
    (total : Nat) : Nat :=
  bs.foldl
    (fun t b => if selectedGrade = "all" ∨ b.2.grade = selectedGrade then t + 1 else t)
    total

/-- One iteration of the outer loop of `countBouldersWithGrade`: look the
angle up, skip when the angle or its `boulders` is missing
(`if (!data || !data.boulders) continue`). -/
def countAngleStep (gradeCountMap : AngleUsageMap) (selectedGrade : String)
    (total : Nat) (angle : String) : Nat :=
  match alistGet gradeCountMap angle with
  | none => total
  | some data =>
    match data.boulders with
    | none => total
    | some boulders => countInBoulders selectedGrade boulders total

/-- Embedding of `countBouldersWithGrade` from `script.js`: for `angle === "all"` it walks `Object.keys(gradeCountMap)`,
otherwise the single selected angle. -/
def countBouldersWithGrade (gradeCountMap : AngleUsageMap)
    (selectedGrade selectedAngle : String) : Nat :=
  (if selectedAngle = "all" then gradeCountMap.map Prod.fst else [selectedAngle]).foldl
    (countAngleStep gradeCountMap selectedGrade) 0

/-- The marker styling applied per hold in `drawBoardWithNormalizedHeatmap`
(lines setting `fill`, `fill-opacity`, `stroke`, `stroke-opacity`):
opacities are exact rationals for the literals `0.7` and `0.5`. -/
structure CircleStyle where
  fill : String
  fillOpacity : ℚ
  stroke : String
  strokeOpacity : ℚ
deriving DecidableEq, Repr

/-- The `circle.setAttribute(...)` calls for one hold, as a pure record:
`fill` from `getPercentileColor`, visibility gated by `usage > 1`. -/
def circleStyle (usage : Nat) (quantiles : Quantiles) : CircleStyle :=
  { fill := getPercentileColor usage quantiles
    fillOpacity := if usage > 1 then 7/10 else 0
    stroke := if usage > 1 then "black" else "transparent"
    strokeOpacity := if usage > 1 then 1/2 else 0 }

end KilterHeatmap

namespace KilterHeatmap

/-- C1. `getPercentileColor` classifies top-down with inclusive (`≥`) lower
bounds: `0` is always `"transparent"`; otherwise the first cutoff (from
`quantiles[4]` down) that `value` reaches selects the color, and anything below
`quantiles[1]` takes the bottom color. For cutoffs `(0,2,5,10,20)`: `25` and
`20` map to the top color, `19` to the second tier, `1` to the bottom color. -/
theorem getPercentileColor_spec :
    (∀ q : Quantiles, getPercentileColor 0 q = "transparent")
    ∧ (∀ (q : Quantiles) (v : Nat), v ≠ 0 →
        (q.q4 ≤ v → getPercentileColor v q = "#bd0026")
        ∧ (v < q.q4 → q.q3 ≤ v → getPercentileColor v q = "#fd8d3c")
        ∧ (v < q.q4 → v < q.q3 → q.q2 ≤ v → getPercentileColor v q = "#fecc5c")
        ∧ (v < q.q4 → v < q.q3 → v < q.q2 → q.q1 ≤ v →
            getPercentileColor v q = "#ffffb2")
        ∧ (v < q.q4 → v < q.q3 → v < q.q2 → v < q.q1 →
            getPercentileColor v q = "#d4f7b2"))
    ∧ getPercentileColor 25 ⟨0, 2, 5, 10, 20⟩ = "#bd0026"
    ∧ getPercentileColor 20 ⟨0, 2, 5, 10, 20⟩ = "#bd0026"
    ∧ getPercentileColor 19 ⟨0, 2, 5, 10, 20⟩ = "#fd8d3c"
    ∧ getPercentileColor 1 ⟨0, 2, 5, 10, 20⟩ = "#d4f7b2" := by
  refine ⟨fun q => rfl, fun q v hv => ?_, by decide, by decide, by decide, by decide⟩
  refine ⟨fun h4 => ?_, fun h4 h3 => ?_, fun h4 h3 h2 => ?_,
    fun h4 h3 h2 h1 => ?_, fun h4 h3 h2 h1 => ?_⟩
  all_goals
    simp only [getPercentileColor, if_neg hv]
  · rw [if_pos h4]
  · rw [if_neg (by omega), if_pos h3]
  · rw [if_neg (by omega), if_neg (by omega), if_pos h2]
  · rw [if_neg (by omega), if_neg (by omega), if_neg (by omega), if_pos h1]
  · rw [if_neg (by omega), if_neg (by omega), if_neg (by omega), if_neg (by omega)]

/-- Witness for C1: instantiates the bucket clauses at concrete values. -/
theorem getPercentileColor_spec_witness :
    getPercentileColor 7 ⟨0, 2, 5, 10, 20⟩ = "#fecc5c" := by
  have h := (getPercentileColor_spec.2.1 ⟨0, 2, 5, 10, 20⟩ 7 (by decide)).2.2.1
  exact h (by decide) (by decide) (by decide)

/-- C7. `computeQuantiles` on the empty sequence returns `(0,0,0,0,0)`. -/
theorem computeQuantiles_nil : computeQuantiles [] = ⟨0, 0, 0, 0, 0⟩ := rfl

/-- Floor fact: `⌊(a/b : ℚ) * n⌋₊` is the natural-number division `a * n / b`. -/
theorem floor_ratio_mul (a b n : ℕ) : ⌊((a : ℚ) / (b : ℚ)) * n⌋₊ = a * n / b := by
  have h : ((a : ℚ) / b) * n = ((a * n : ℕ) : ℚ) / (b : ℕ) := by push_cast; ring
  rw [h, Nat.floor_div_nat, Nat.floor_natCast]

/-- In a `≤`-sorted list, `getD` is monotone in the index (up to the length). -/
theorem sorted_getD_mono {l : List Nat} (hs : l.Sorted (· ≤ ·)) {i j : Nat}
    (hij : i ≤ j) (hj : j < l.length) : l.getD i 0 ≤ l.getD j 0 := by
  have hi : i < l.length := lt_of_le_of_lt hij hj
  rw [List.getD_eq_getElem _ _ hi, List.getD_eq_getElem _ _ hj]
  exact hs.rel_get_of_le hij

/-- Unfolding of `computeQuantiles` on a non-empty input. -/
theorem computeQuantiles_eq (values : List Nat) (h : values ≠ []) :
    computeQuantiles values =
      ⟨(List.insertionSort (· ≤ ·) values).getD 0 0,
       (List.insertionSort (· ≤ ·) values).getD (3 * values.length / 10) 0,
       (List.insertionSort (· ≤ ·) values).getD (5 * values.length / 10) 0,
       (List.insertionSort (· ≤ ·) values).getD (85 * values.length / 100) 0,
       (List.insertionSort (· ≤ ·) values).getD (95 * values.length / 100) 0⟩ := by
  have hlen : (List.insertionSort (· ≤ ·) values).length = values.length :=
    (List.perm_insertionSort _ _).length_eq
  have hne : ¬ values.length = 0 := by
    simpa using fun he => h (List.length_eq_zero.mp he)
  simp only [computeQuantiles, if_neg hne, hlen]

/-- C2. On a non-empty sequence, `computeQuantiles` returns the entries of
the ascending sort at positions `⌊q * n⌋` for `q ∈ {0, 0.3, 0.5, 0.85, 0.95}`,
the floor (not ceiling/rounding) of the exact products, and every index is
below the length; position 0 carries the minimum. -/
theorem computeQuantiles_quantile_spec (values : List Nat) (h : values ≠ []) :
    ∃ sorted : List Nat,
      values.Perm sorted ∧ sorted.Sorted (· ≤ ·) ∧
      computeQuantiles values =
        ⟨sorted.getD (⌊(0 : ℚ) * values.length⌋₊) 0,
         sorted.getD (⌊(3 / 10 : ℚ) * values.length⌋₊) 0,
         sorted.getD (⌊(5 / 10 : ℚ) * values.length⌋₊) 0,
         sorted.getD (⌊(85 / 100 : ℚ) * values.length⌋₊) 0,
         sorted.getD (⌊(95 / 100 : ℚ) * values.length⌋₊) 0⟩ ∧
      ⌊(0 : ℚ) * values.length⌋₊ < values.length ∧
      ⌊(3 / 10 : ℚ) * values.length⌋₊ < values.length ∧
      ⌊(5 / 10 : ℚ) * values.length⌋₊ < values.length ∧
      ⌊(85 / 100 : ℚ) * values.length⌋₊ < values.length ∧
      ⌊(95 / 100 : ℚ) * values.length⌋₊ < values.length := by
  have hn1 : 1 ≤ values.length := by
    cases values with
    | nil => exact absurd rfl h
    | cons a t => simp
  have h0 : ⌊(0 : ℚ) * (values.length : ℚ)⌋₊ = 0 := by simp
  have h30 : ⌊(3 / 10 : ℚ) * (values.length : ℚ)⌋₊ = 3 * values.length / 10 := by
    simpa using floor_ratio_mul 3 10 values.length
  have h50 : ⌊(5 / 10 : ℚ) * (values.length : ℚ)⌋₊ = 5 * values.length / 10 := by
    simpa using floor_ratio_mul 5 10 values.length
  have h85 : ⌊(85 / 100 : ℚ) * (values.length : ℚ)⌋₊ = 85 * values.length / 100 := by
    simpa using floor_ratio_mul 85 100 values.length
  have h95 : ⌊(95 / 100 : ℚ) * (values.length : ℚ)⌋₊ = 95 * values.length / 100 := by
    simpa using floor_ratio_mul 95 100 values.length
  refine ⟨List.insertionSort (· ≤ ·) values, (List.perm_insertionSort _ _).symm,
    List.sorted_insertionSort _ _, ?_, ?_, ?_, ?_, ?_, ?_⟩
  · rw [computeQuantiles_eq values h, h0, h30, h50, h85, h95]
  · omega
  · rw [h30]; omega
  · rw [h50]; omega
  · rw [h85]; omega
  · rw [h95]; omega

/-- Witness for C2 at `values = [4, 1, 7]`. -/
theorem computeQuantiles_quantile_spec_witness :
    ∃ sorted : List Nat,
      [4, 1, 7].Perm sorted ∧ sorted.Sorted (· ≤ ·) ∧
      computeQuantiles [4, 1, 7] =
        ⟨sorted.getD (⌊(0 : ℚ) * ([4, 1, 7] : List Nat).length⌋₊) 0,
         sorted.getD (⌊(3 / 10 : ℚ) * ([4, 1, 7] : List Nat).length⌋₊) 0,
         sorted.getD (⌊(5 / 10 : ℚ) * ([4, 1, 7] : List Nat).length⌋₊) 0,
         sorted.getD (⌊(85 / 100 : ℚ) * ([4, 1, 7] : List Nat).length⌋₊) 0,
         sorted.getD (⌊(95 / 100 : ℚ) * ([4, 1, 7] : List Nat).length⌋₊) 0⟩ ∧
      ⌊(0 : ℚ) * ([4, 1, 7] : List Nat).length⌋₊ < ([4, 1, 7] : List Nat).length ∧
      ⌊(3 / 10 : ℚ) * ([4, 1, 7] : List Nat).length⌋₊ < ([4, 1, 7] : List Nat).length ∧
      ⌊(5 / 10 : ℚ) * ([4, 1, 7] : List Nat).length⌋₊ < ([4, 1, 7] : List Nat).length ∧
      ⌊(85 / 100 : ℚ) * ([4, 1, 7] : List Nat).length⌋₊ < ([4, 1, 7] : List Nat).length ∧
      ⌊(95 / 100 : ℚ) * ([4, 1, 7] : List Nat).length⌋₊ < ([4, 1, 7] : List Nat).length :=
  computeQuantiles_quantile_spec [4, 1, 7] (by decide)

/-- C3. On a non-empty sequence of counts the returned cutoffs are
non-decreasing, and the first one is the minimum of the input. -/
theorem computeQuantiles_monotone (values : List Nat) (h : values ≠ []) :
    ((computeQuantiles values).q0 ≤ (computeQuantiles values).q1
      ∧ (computeQuantiles values).q1 ≤ (computeQuantiles values).q2
      ∧ (computeQuantiles values).q2 ≤ (computeQuantiles values).q3
      ∧ (computeQuantiles values).q3 ≤ (computeQuantiles values).q4)
    ∧ (computeQuantiles values).q0 ∈ values
    ∧ ∀ x ∈ values, (computeQuantiles values).q0 ≤ x := by
  have hn1 : 1 ≤ values.length := by
    cases values with
    | nil => exact absurd rfl h
    | cons a t => simp
  have hperm := List.perm_insertionSort (· ≤ ·) values
  have hsort := List.sorted_insertionSort (· ≤ ·) values
  have hlen : (List.insertionSort (· ≤ ·) values).length = values.length :=
    hperm.length_eq
  rw [computeQuantiles_eq values h]
  refine ⟨⟨?_, ?_, ?_, ?_⟩, ?_, ?_⟩
  · exact sorted_getD_mono hsort (by omega) (by omega)
  · exact sorted_getD_mono hsort (by omega) (by omega)
  · exact sorted_getD_mono hsort (by omega) (by omega)
  · exact sorted_getD_mono hsort (by omega) (by omega)
  · refine hperm.mem_iff.mp ?_
    have hi : 0 < (List.insertionSort (· ≤ ·) values).length := by omega
    rw [List.getD_eq_getElem _ _ hi]
    exact List.getElem_mem _
  · intro x hx
    obtain ⟨k, hk, rfl⟩ := List.mem_iff_get.mp (hperm.mem_iff.mpr hx)
    have hx0 := sorted_getD_mono hsort (Nat.zero_le k.1) k.isLt
    rwa [List.getD_eq_getElem _ _ k.isLt] at hx0

/-- Reading after `alistSet` at the same key gives the written value. -/
theorem alistGet_set_self {α : Type} (m : List (String × α)) (k : String) (v : α) :
    alistGet (alistSet m k v) k = some v := by
  induction m with
  | nil => simp [alistGet, alistSet]
  | cons e rest ih =>
    obtain ⟨k', v'⟩ := e
    by_cases hk : k' = k
    · simp [alistSet, alistGet, hk]
    · simp [alistSet, alistGet, hk, ih]

/-- Reading after `alistSet` at a different key is unchanged. -/
theorem alistGet_set_ne {α : Type} (m : List (String × α)) {k k' : String} (v : α)
    (h : k' ≠ k) : alistGet (alistSet m k v) k' = alistGet m k' := by
  have hne : ¬ k = k' := fun he => h he.symm
  induction m with
  | nil => simp [alistGet, alistSet, hne]
  | cons e rest ih =>
    obtain ⟨k0, v0⟩ := e
    by_cases hk : k0 = k
    · subst hk
      simp [alistSet, alistGet, hne]
    · simp only [alistSet, if_neg hk, alistGet]
      by_cases hk' : k0 = k'
      · simp [hk']
      · simp [hk', ih]

/-- Keys after `alistSet`: `k` joins the key set, the others stay. -/
theorem mem_keys_alistSet {α : Type} (m : List (String × α)) (k h : String) (v : α) :
    h ∈ (alistSet m k v).map Prod.fst ↔ h ∈ m.map Prod.fst ∨ h = k := by
  induction m with
  | nil => simp [alistSet, eq_comm]
  | cons e rest ih =>
    obtain ⟨k0, v0⟩ := e
    by_cases hk : k0 = k
    · subst hk
      simp only [alistSet, if_true, List.map_cons, List.mem_cons]
      tauto
    · simp only [alistSet, if_neg hk, List.map_cons, List.mem_cons, ih]
      tauto

/-- Count stored for grade `g`, `0` when absent (`grades[g] || 0`). -/
def lookupCount (gc : GradeCounts) (g : String) : Nat := (alistGet gc g).getD 0

/-- Per-hold, per-grade total read off a holds object (`0` when absent). -/
def lookupHG (m : List (String × GradeCounts)) (h g : String) : Nat :=
  lookupCount ((alistGet m h).getD []) g

/-- Observation: total count carried by the entries with key `g`. -/
def entriesSum (gc : GradeCounts) (g : String) : Nat :=
  match gc with
  | [] => 0
  | (g', c) :: rest => (if g' = g then c else 0) + entriesSum rest g

/-- Observation: total count a holds object carries for hold `h`, grade `g`. -/
def holdsSum (holds : List (String × GradeCounts)) (h g : String) : Nat :=
  match holds with
  | [] => 0
  | (h', gc) :: rest => (if h' = h then entriesSum gc g else 0) + holdsSum rest h g

/-- Observation: what one angle contributes for hold `h`, grade `g`. -/
def angleContrib (ad : AngleData) (h g : String) : Nat :=
  match ad.holds with
  | none => 0
  | some hs => holdsSum hs h g

/-- Observation: total contribution of every angle for hold `h`, grade `g`. -/
def anglesSum (m : AngleUsageMap) (h g : String) : Nat :=
  (m.map (fun p => angleContrib p.2 h g)).sum

theorem addGradeCounts_nil (acc : GradeCounts) : addGradeCounts acc [] = acc := rfl

theorem addGradeCounts_cons (acc : GradeCounts) (e : String × Nat) (rest : GradeCounts) :
    addGradeCounts acc (e :: rest) =
      addGradeCounts (alistSet acc e.1 ((alistGet acc e.1).getD 0 + e.2)) rest := rfl

/-- Accumulating a grades object adds its per-grade totals. -/
theorem lookupCount_addGradeCounts (grades : GradeCounts) (acc : GradeCounts) (g : String) :
    lookupCount (addGradeCounts acc grades) g = lookupCount acc g + entriesSum grades g := by
  induction grades generalizing acc with
  | nil => simp [addGradeCounts_nil, entriesSum]
  | cons e rest ih =>
    obtain ⟨g', c⟩ := e
    rw [addGradeCounts_cons, ih]
    by_cases hg : g' = g
    · subst hg
      simp only [entriesSum, if_true]
      have hset : lookupCount (alistSet acc g' ((alistGet acc g').getD 0 + c)) g'
          = lookupCount acc g' + c := by
        simp [lookupCount, alistGet_set_self]
      rw [hset]
      omega
    · have hset : lookupCount (alistSet acc g' ((alistGet acc g').getD 0 + c)) g
          = lookupCount acc g := by
        simp [lookupCount, alistGet_set_ne _ _ (fun he => hg he.symm)]
      simp only [entriesSum, if_neg hg, hset]
      omega

theorem mergeHoldsInto_nil (merged : List (String × GradeCounts)) :
    mergeHoldsInto merged [] = merged := rfl

theorem mergeHoldsInto_cons (merged : List (String × GradeCounts))
    (e : String × GradeCounts) (rest : List (String × GradeCounts)) :
    mergeHoldsInto merged (e :: rest) =
      mergeHoldsInto
        (alistSet merged e.1 (addGradeCounts ((alistGet merged e.1).getD []) e.2)) rest := rfl

/-- Merging one angle's holds object adds its per-hold, per-grade totals. -/
theorem lookupHG_mergeHoldsInto (holds : List (String × GradeCounts))
    (merged : List (String × GradeCounts)) (h g : String) :
    lookupHG (mergeHoldsInto merged holds) h g = lookupHG merged h g + holdsSum holds h g := by
  induction holds generalizing merged with
  | nil => simp [mergeHoldsInto_nil, holdsSum]
  | cons e rest ih =>
    obtain ⟨h', gc⟩ := e
    rw [mergeHoldsInto_cons, ih]
    by_cases hh : h' = h
    · subst hh
      have hset : lookupHG
          (alistSet merged h' (addGradeCounts ((alistGet merged h').getD []) gc)) h' g
          = lookupHG merged h' g + entriesSum gc g := by
        simp [lookupHG, alistGet_set_self, lookupCount_addGradeCounts]
      simp only [holdsSum, if_true, hset]
      omega
    · have hset : lookupHG
          (alistSet merged h' (addGradeCounts ((alistGet merged h').getD []) gc)) h g
          = lookupHG merged h g := by
        simp [lookupHG, alistGet_set_ne _ _ (fun he => hh he.symm)]
      simp only [holdsSum, if_neg hh, hset]
      omega

/-- The `mergeAllAngles` fold, started from any accumulator, adds all angle
contributions to the accumulator's totals. -/
theorem lookupHG_mergeAllAngles_aux (m : AngleUsageMap)
    (acc : List (String × GradeCounts)) (h g : String) :
    lookupHG
      (m.foldl
        (fun merged ad =>
          match ad.2.holds with
          | none => merged
          | some holds => mergeHoldsInto merged holds)
        acc) h g
      = lookupHG acc h g + anglesSum m h g := by
  induction m generalizing acc with
  | nil => simp [anglesSum]
  | cons p rest ih =>
    simp only [List.foldl_cons]
    cases hp : p.2.holds with
    | none =>
      dsimp only
      rw [ih]
      simp [anglesSum, angleContrib, hp]
    | some hs =>
      dsimp only
      rw [ih, lookupHG_mergeHoldsInto]
      simp only [anglesSum, angleContrib, hp, List.map_cons, List.sum_cons]
      omega

/-- Per-hold, per-grade totals of `mergeAllAngles` are the angle-wise sums. -/
theorem lookupHG_mergeAllAngles (m : AngleUsageMap) (h g : String) :
    lookupHG (mergeAllAngles m) h g = anglesSum m h g := by
  have haux := lookupHG_mergeAllAngles_aux m [] h g
  simpa [mergeAllAngles, lookupHG, lookupCount, alistGet] using haux

/-- Keys of `mergeHoldsInto` are the union of both key sets. -/
theorem mem_keys_mergeHoldsInto (holds : List (String × GradeCounts))
    (merged : List (String × GradeCounts)) (h : String) :
    h ∈ (mergeHoldsInto merged holds).map Prod.fst ↔
      h ∈ merged.map Prod.fst ∨ h ∈ holds.map Prod.fst := by
  induction holds generalizing merged with
  | nil => simp [mergeHoldsInto_nil]
  | cons e rest ih =>
    rw [mergeHoldsInto_cons, ih, mem_keys_alistSet]
    simp only [List.map_cons, List.mem_cons]
    tauto

/-- The `mergeAllAngles` fold key set: accumulator keys plus every holdId of
every angle that has a holds object. -/
theorem mem_keys_mergeAllAngles_aux (m : AngleUsageMap)
    (acc : List (String × GradeCounts)) (h : String) :
    (h ∈ (m.foldl
        (fun merged ad =>
          match ad.2.holds with
          | none => merged
          | some holds => mergeHoldsInto merged holds)
        acc).map Prod.fst) ↔
      h ∈ acc.map Prod.fst ∨
        ∃ p ∈ m, ∃ hs, p.2.holds = some hs ∧ h ∈ hs.map Prod.fst := by
  induction m generalizing acc with
  | nil => simp
  | cons p rest ih =>
    simp only [List.foldl_cons, List.exists_mem_cons_iff]
    cases hp : p.2.holds with
    | none =>
      dsimp only
      rw [ih]
      simp
    | some hs =>
      dsimp only
      rw [ih, mem_keys_mergeHoldsInto]
      simp only [Option.some.injEq]
      constructor
      · rintro ((hm | hin) | hr)
        · exact Or.inl hm
        · exact Or.inr (Or.inl ⟨hs, rfl, hin⟩)
        · exact Or.inr (Or.inr hr)
      · rintro (hm | (⟨hs', heq, hin⟩ | hr))
        · exact Or.inl (Or.inl hm)
        · subst heq
          exact Or.inl (Or.inr hin)
        · exact Or.inr hr

/-- C4. Merging the angles in any two enumeration orders yields identical
per-hold, per-grade totals; the holdId set of the merge is the union of the
holdId sets across angles with a holds object; merging the empty map yields
the empty mapping. -/
theorem mergeAllAngles_order_invariant (m m' : AngleUsageMap) (hp : m.Perm m') :
    (∀ h g, lookupHG (mergeAllAngles m) h g = lookupHG (mergeAllAngles m') h g)
    ∧ (∀ h, h ∈ (mergeAllAngles m).map Prod.fst ↔
        ∃ p ∈ m, ∃ hs, p.2.holds = some hs ∧ h ∈ hs.map Prod.fst)
    ∧ mergeAllAngles ([] : AngleUsageMap) = [] := by
  refine ⟨fun h g => ?_, fun h => ?_, rfl⟩
  · rw [lookupHG_mergeAllAngles, lookupHG_mergeAllAngles]
    exact (hp.map (fun p => angleContrib p.2 h g)).sum_eq
  · have haux := mem_keys_mergeAllAngles_aux m [] h
    simpa [mergeAllAngles] using haux

/-- Witness for C4: two angles merged in both orders give the same totals. -/
theorem mergeAllAngles_order_invariant_witness :
    (∀ h g,
      lookupHG (mergeAllAngles
        [("20", ⟨some [("H1", [("V3", 2)])], none⟩),
         ("40", ⟨some [("H1", [("V3", 5)]), ("H2", [("V4", 1)])], none⟩)]) h g
      = lookupHG (mergeAllAngles
        [("40", ⟨some [("H1", [("V3", 5)]), ("H2", [("V4", 1)])], none⟩),
         ("20", ⟨some [("H1", [("V3", 2)])], none⟩)]) h g)
    ∧ (∀ h, h ∈ (mergeAllAngles
        [("20", ⟨some [("H1", [("V3", 2)])], none⟩),
         ("40", ⟨some [("H1", [("V3", 5)]), ("H2", [("V4", 1)])], none⟩)]).map Prod.fst ↔
        ∃ p ∈ [("20", (⟨some [("H1", [("V3", 2)])], none⟩ : AngleData)),
               ("40", ⟨some [("H1", [("V3", 5)]), ("H2", [("V4", 1)])], none⟩)],
          ∃ hs, p.2.holds = some hs ∧ h ∈ hs.map Prod.fst)
    ∧ mergeAllAngles ([] : AngleUsageMap) = [] :=
  mergeAllAngles_order_invariant
    [("20", ⟨some [("H1", [("V3", 2)])], none⟩),
     ("40", ⟨some [("H1", [("V3", 5)]), ("H2", [("V4", 1)])], none⟩)]
    [("40", ⟨some [("H1", [("V3", 5)]), ("H2", [("V4", 1)])], none⟩),
     ("20", ⟨some [("H1", [("V3", 2)])], none⟩)]
    (List.Perm.swap _ _ _)

/-- Folding `(+)` is `sum` with the accumulator added in front. -/
theorem foldl_add_eq_add_sum (l : List Nat) (n : Nat) : l.foldl (· + ·) n = n + l.sum := by
  induction l generalizing n with
  | nil => simp
  | cons a t ih =>
    simp only [List.foldl_cons, ih, List.sum_cons]
    omega

/-- Setting a fresh key appends the entry. -/
theorem alistSet_of_not_mem {α : Type} (m : List (String × α)) (k : String) (v : α)
    (h : k ∉ m.map Prod.fst) : alistSet m k v = m ++ [(k, v)] := by
  induction m with
  | nil => simp [alistSet]
  | cons e rest ih =>
    obtain ⟨k0, v0⟩ := e
    simp only [List.map_cons, List.mem_cons, not_or] at h
    have hne : ¬ k0 = k := fun he => h.1 he.symm
    simp [alistSet, hne, ih h.2]

/-- With no duplicate holdIds, the `usagePerHold` fold lists each hold's
filtered usage, in order, after the accumulator. -/
theorem usagePerHold_foldl_eq (m : List (String × GradeCounts)) (g : String)
    (acc : List (String × Nat)) (hnd : (m.map Prod.fst).Nodup)
    (hdis : ∀ k ∈ m.map Prod.fst, k ∉ acc.map Prod.fst) :
    m.foldl (fun acc hg => alistSet acc hg.1 (holdUsage hg.2 g)) acc
      = acc ++ m.map (fun hg => (hg.1, holdUsage hg.2 g)) := by
  induction m generalizing acc with
  | nil => simp
  | cons e rest ih =>
    obtain ⟨h0, gc0⟩ := e
    simp only [List.map_cons, List.nodup_cons] at hnd
    simp only [List.foldl_cons]
    rw [alistSet_of_not_mem acc h0 _ (hdis h0 (by simp))]
    rw [ih (acc ++ [(h0, holdUsage gc0 g)]) hnd.2]
    · simp
    · intro k hk
      simp only [List.map_append, List.mem_append, List.map_cons, List.map_nil,
        List.mem_singleton, not_or]
      exact ⟨hdis k (by simp [hk]), fun he => hnd.1 (he ▸ hk)⟩

/-- With no duplicate holdIds, reading `usagePerHold` at a hold gives that
hold's filtered usage. -/
theorem alistGet_usagePerHold (m : List (String × GradeCounts)) (g h : String)
    (hnd : (m.map Prod.fst).Nodup) :
    alistGet (usagePerHold m g) h = (alistGet m h).map (fun gc => holdUsage gc g) := by
  rw [usagePerHold, usagePerHold_foldl_eq m g [] hnd (by simp)]
  simp only [List.nil_append]
  induction m with
  | nil => simp [alistGet]
  | cons e rest ih =>
    obtain ⟨h0, gc0⟩ := e
    simp only [List.map_cons, List.nodup_cons] at hnd
    by_cases hh : h0 = h
    · simp [alistGet, hh]
    · simp only [List.map_cons, alistGet, if_neg hh]
      exact ih hnd.2

/-- With the `"all"` sentinel, `holdUsage` is the sum of the stored counts. -/
theorem holdUsage_all (gc : GradeCounts) :
    holdUsage gc "all" = (gc.map Prod.snd).sum := by
  simp [holdUsage, foldl_add_eq_add_sum]

/-- With a specific grade, `holdUsage` is that grade's count (`0` if absent). -/
theorem holdUsage_single (gc : GradeCounts) (g : String) (h : g ≠ "all") :
    holdUsage gc g = lookupCount gc g := by
  simp [holdUsage, if_neg h, lookupCount]

/-- With unique grade keys, summing each key's looked-up count sums the
stored values. -/
theorem sum_lookup_eq_sum_values (gc : GradeCounts) (hnd : (gc.map Prod.fst).Nodup) :
    ((gc.map Prod.fst).map (fun g => lookupCount gc g)).sum = (gc.map Prod.snd).sum := by
  induction gc with
  | nil => simp
  | cons e rest ih =>
    obtain ⟨g0, c0⟩ := e
    simp only [List.map_cons, List.nodup_cons] at hnd
    simp only [List.map_cons, List.sum_cons]
    have h0 : lookupCount ((g0, c0) :: rest) g0 = c0 := by
      simp [lookupCount, alistGet]
    have hrest : (rest.map Prod.fst).map (fun g => lookupCount ((g0, c0) :: rest) g)
        = (rest.map Prod.fst).map (fun g => lookupCount rest g) := by
      refine List.map_congr_left fun g hg => ?_
      have hne : ¬ g0 = g := fun he => hnd.1 (he ▸ hg)
      simp [lookupCount, alistGet, hne]
    rw [h0, hrest, ih hnd.2]

/-- C5. For a holds mapping with unique hold and grade keys whose grade
labels avoid the `"all"` sentinel, the usage computed with `grade == "all"`
equals, hold by hold, the sum over that hold's individual grades of the usage
computed with that grade selected. -/
theorem usagePerHold_all_eq_sum_grades (activeMap : List (String × GradeCounts))
    (h : String) (gc : GradeCounts) (hnd : (activeMap.map Prod.fst).Nodup)
    (hget : alistGet activeMap h = some gc)
    (hgnd : (gc.map Prod.fst).Nodup) (hall : "all" ∉ gc.map Prod.fst) :
    (alistGet (usagePerHold activeMap "all") h).getD 0
      = ((gc.map Prod.fst).map
          (fun g => (alistGet (usagePerHold activeMap g) h).getD 0)).sum := by
  have hmap : (gc.map Prod.fst).map
      (fun g => (alistGet (usagePerHold activeMap g) h).getD 0)
      = (gc.map Prod.fst).map (fun g => lookupCount gc g) := by
    refine List.map_congr_left fun g hg => ?_
    rw [alistGet_usagePerHold activeMap g h hnd, hget]
    simp only [Option.map_some', Option.getD_some]
    exact holdUsage_single gc g (fun he => hall (he ▸ hg))
  rw [hmap, sum_lookup_eq_sum_values gc hgnd,
    alistGet_usagePerHold activeMap "all" h hnd, hget]
  exact holdUsage_all gc

/-- Witness for C5 on a two-hold, two-grade mapping. -/
theorem usagePerHold_all_eq_sum_grades_witness :
    (alistGet (usagePerHold [("H1", [("V3", 2), ("V4", 1)]), ("H2", [("V3", 5)])] "all")
        "H1").getD 0
      = ((([("V3", 2), ("V4", 1)] : GradeCounts).map Prod.fst).map
          (fun g =>
            (alistGet (usagePerHold
              [("H1", [("V3", 2), ("V4", 1)]), ("H2", [("V3", 5)])] g) "H1").getD 0)).sum :=
  usagePerHold_all_eq_sum_grades
    [("H1", [("V3", 2), ("V4", 1)]), ("H2", [("V3", 5)])] "H1" [("V3", 2), ("V4", 1)]
    (by decide) (by decide) (by decide) (by decide)

/-- C6. Missing keys default to zero/empty: a selected angle that is absent
or lacks a `holds` sub-map yields the empty mapping, `"all"` yields the merge
of all angles, and a grade absent from a hold's counts yields usage `0`. -/
theorem missing_keys_default :
    (∀ (m : AngleUsageMap) (a : String), a ≠ "all" → alistGet m a = none →
      selectActiveMap m a = [])
    ∧ (∀ (m : AngleUsageMap) (a : String) (ad : AngleData), a ≠ "all" →
        alistGet m a = some ad → ad.holds = none → selectActiveMap m a = [])
    ∧ (∀ m : AngleUsageMap, selectActiveMap m "all" = mergeAllAngles m)
    ∧ (∀ (gc : GradeCounts) (g : String), g ≠ "all" → alistGet gc g = none →
        holdUsage gc g = 0) := by
  refine ⟨fun m a ha hget => ?_, fun m a ad ha hget hh => ?_, fun m => ?_,
    fun gc g hg hget => ?_⟩
  · simp [selectActiveMap, ha, hget]
  · simp [selectActiveMap, ha, hget, hh]
  · simp [selectActiveMap]
  · simp [holdUsage, hg, hget]

/-- Witness for C6: absent angle `"20"`, angle `"30"` without holds, the
`"all"` merge, and an absent grade all default. -/
theorem missing_keys_default_witness :
    selectActiveMap [("40", ⟨some [("H1", [("V3", 2)])], none⟩)] "20" = []
    ∧ selectActiveMap [("30", ⟨none, some [("u1", ⟨"V5"⟩)]⟩)] "30" = []
    ∧ selectActiveMap [("40", ⟨some [("H1", [("V3", 2)])], none⟩)] "all"
        = mergeAllAngles [("40", ⟨some [("H1", [("V3", 2)])], none⟩)]
    ∧ holdUsage [("V3", 2)] "V5" = 0 :=
  ⟨missing_keys_default.1 [("40", ⟨some [("H1", [("V3", 2)])], none⟩)] "20"
      (by decide) (by decide),
   missing_keys_default.2.1 [("30", ⟨none, some [("u1", ⟨"V5"⟩)]⟩)] "30"
      ⟨none, some [("u1", ⟨"V5"⟩)]⟩ (by decide) (by decide) rfl,
   missing_keys_default.2.2.1 [("40", ⟨some [("H1", [("V3", 2)])], none⟩)],
   missing_keys_default.2.2.2 [("V3", 2)] "V5" (by decide) (by decide)⟩

/-- The boulder-count inner loop with `selectedGrade = "all"` counts every
entry of the boulders object. -/
theorem countInBoulders_all (bs : List (String × BoulderInfo)) (t : Nat) :
    countInBoulders "all" bs t = t + bs.length := by
  induction bs generalizing t with
  | nil => rfl
  | cons b rest ih =>
    rw [countInBoulders, List.foldl_cons, if_pos (Or.inl rfl)]
    have hrest := ih (t + 1)
    rw [countInBoulders] at hrest
    rw [hrest, List.length_cons]
    omega

/-- One outer-loop step with `selectedGrade = "all"` adds the size of the
looked-up boulders object (`0` for missing data). -/
theorem countAngleStep_all (m : AngleUsageMap) (t : Nat) (k : String) :
    countAngleStep m "all" t k
      = t + (match alistGet m k with
          | none => 0
          | some data => (data.boulders.getD []).length) := by
  rw [countAngleStep]
  cases alistGet m k with
  | none => rfl
  | some data =>
    dsimp only
    cases data.boulders with
    | none => rfl
    | some bs =>
      dsimp only
      rw [countInBoulders_all]
      rfl

/-- The boulder-count outer loop over any key list adds, per key, the size of
the looked-up boulders object. -/
theorem countBould_fold (m : AngleUsageMap) (ks : List String) (t : Nat) :
    ks.foldl (countAngleStep m "all") t
      = t + (ks.map
          (fun k =>
            match alistGet m k with
            | none => 0
            | some data => (data.boulders.getD []).length)).sum := by
  induction ks generalizing t with
  | nil => rfl
  | cons k rest ih =>
    rw [List.foldl_cons, countAngleStep_all, ih, List.map_cons, List.sum_cons]
    omega

/-- With unique keys, mapping a function of the looked-up value over the key
list is mapping it over the entries. -/
theorem map_lookup_eq_map_entries (m : AngleUsageMap) (F : Option AngleData → Nat)
    (hnd : (m.map Prod.fst).Nodup) :
    (m.map Prod.fst).map (fun k => F (alistGet m k))
      = m.map (fun p => F (some p.2)) := by
  induction m with
  | nil => simp
  | cons e rest ih =>
    obtain ⟨k0, ad0⟩ := e
    simp only [List.map_cons, List.nodup_cons] at hnd
    simp only [List.map_cons, alistGet]
    have htail : (rest.map Prod.fst).map
        (fun k => F (if k0 = k then some ad0 else alistGet rest k))
        = (rest.map Prod.fst).map (fun k => F (alistGet rest k)) := by
      refine List.map_congr_left fun k hk => ?_
      have hne : ¬ k0 = k := fun he => hnd.1 (by rw [he]; exact hk)
      rw [if_neg hne]
    rw [htail, ih hnd.2]
    rfl

/-- C9. With both filters at `"all"` and unique angle keys,
`countBouldersWithGrade` is the sum over every angle of the size of its
`boulders` object: each angle's entries count independently (no UUID
deduplication across angles) and angles without `boulders` contribute `0`. -/
theorem countBoulders_all_all (m : AngleUsageMap) (hnd : (m.map Prod.fst).Nodup) :
    countBouldersWithGrade m "all" "all"
      = (m.map (fun p => (p.2.boulders.getD []).length)).sum := by
  have hmap := map_lookup_eq_map_entries m
    (fun o =>
      match o with
      | none => 0
      | some data => (data.boulders.getD []).length)
    hnd
  rw [countBouldersWithGrade, if_pos rfl, countBould_fold, Nat.zero_add, hmap]

/-- Witness for C9: the UUID `"u1"` present under both angles counts twice,
and the angle without `boulders` counts zero. -/
theorem countBoulders_all_all_witness :
    countBouldersWithGrade
      [("20", ⟨none, some [("u1", ⟨"V3"⟩), ("u2", ⟨"V4"⟩)]⟩),
       ("40", ⟨none, some [("u1", ⟨"V3"⟩)]⟩),
       ("50", ⟨some [("H1", [("V3", 1)])], none⟩)] "all" "all"
      = ([("20", (⟨none, some [("u1", ⟨"V3"⟩), ("u2", ⟨"V4"⟩)]⟩ : AngleData)),
          ("40", ⟨none, some [("u1", ⟨"V3"⟩)]⟩),
          ("50", ⟨some [("H1", [("V3", 1)])], none⟩)].map
            (fun p => (p.2.boulders.getD []).length)).sum :=
  countBoulders_all_all
    [("20", ⟨none, some [("u1", ⟨"V3"⟩), ("u2", ⟨"V4"⟩)]⟩),
     ("40", ⟨none, some [("u1", ⟨"V3"⟩)]⟩),
     ("50", ⟨some [("H1", [("V3", 1)])], none⟩)]
    (by decide)

/-- C8. A hold whose usage is exactly `1` is drawn invisible — fill and
stroke opacity `0`, stroke `"transparent"` — although `getPercentileColor`
gives it a non-transparent bucket color; fill opacity is `0.7` exactly for
usage strictly greater than `1`. -/
theorem usage_one_invisible :
    ∀ (q : Quantiles) (u : Nat),
      ((circleStyle 1 q).fillOpacity = 0
        ∧ (circleStyle 1 q).strokeOpacity = 0
        ∧ (circleStyle 1 q).stroke = "transparent"
        ∧ (circleStyle 1 q).fill ≠ "transparent")
      ∧ ((circleStyle u q).fillOpacity = 7 / 10 ↔ 1 < u) := by
  intro q u
  refine ⟨⟨rfl, rfl, rfl, ?_⟩, ?_⟩
  · show getPercentileColor 1 q ≠ "transparent"
    rw [getPercentileColor, if_neg (by decide : ¬ (1 : Nat) = 0)]
    split_ifs <;> decide
  · by_cases hu : 1 < u
    · simp [circleStyle, hu]
    · simp only [circleStyle, if_neg hu]
      constructor
      · intro h0
        exact absurd h0.symm (by norm_num)
      · intro h1
        exact absurd h1 hu

/-! ### Mutation model for `computeQuantiles` (C10)

The JS function receives a reference to the caller's array, copies it with a
spread (`[...values]`), and sorts the copy in place. To state that the
caller's array is not mutated, arrays live in a store of reference cells:
`computeQuantilesS` performs the same steps through the store. -/

/-- A heap of JS arrays; a reference is an index into it. -/
abbrev Store := List (List Nat)

/-- References into the store. -/
abbrev Ref := Nat

/-- Dereference (out-of-range reads give the empty array). -/
def readRef (s : Store) (r : Ref) : List Nat := s.getD r []

/-- In-place update of the array behind a reference. -/
def writeRef (s : Store) (r : Ref) (v : List Nat) : Store := s.set r v

/-- Allocate a fresh array (`[...values]` creates one); returns the new store
and the fresh reference. -/
def alloc (s : Store) (v : List Nat) : Store × Ref := (s ++ [v], s.length)

/-- Store-passing `computeQuantiles` with explicit array references: read the argument,
spread-copy it into a fresh cell, sort that cell in place, and read the
cutoffs off the sorted copy. -/
def computeQuantilesS (s : Store) (values : Ref) : Store × Quantiles :=
  let contents := readRef s values
  if contents.length = 0 then (s, ⟨0, 0, 0, 0, 0⟩)
  else
    let s1 := (alloc s contents).1
    let sortedRef := (alloc s contents).2
    let s2 := writeRef s1 sortedRef (List.insertionSort (· ≤ ·) (readRef s1 sortedRef))
    let sorted := readRef s2 sortedRef
    (s2,
      ⟨sorted.getD 0 0,
       sorted.getD (3 * sorted.length / 10) 0,
       sorted.getD (5 * sorted.length / 10) 0,
       sorted.getD (85 * sorted.length / 100) 0,
       sorted.getD (95 * sorted.length / 100) 0⟩)

/-- C10. `computeQuantiles` does not mutate its argument: after the call
the caller's array is unchanged (sorting happens on the spread copy), and the
returned cutoffs are those of the pure function on the argument's contents. -/
theorem computeQuantilesS_no_mutation (s : Store) (r : Ref) (hr : r < s.length) :
    readRef (computeQuantilesS s r).1 r = readRef s r
    ∧ (computeQuantilesS s r).2 = computeQuantiles (readRef s r) := by
  by_cases hc : (readRef s r).length = 0
  · refine ⟨?_, ?_⟩
    · simp [computeQuantilesS, hc]
    · simp [computeQuantilesS, computeQuantiles, hc]
  · have hfresh : readRef (s ++ [readRef s r]) s.length = readRef s r := by
      simp [readRef, List.getD_eq_getElem?_getD, List.getElem?_append_right]
    have hold : readRef (s ++ [readRef s r]) r = readRef s r := by
      rw [readRef, List.getD_append _ _ _ _ hr]
      rfl
    have hwrite_ne : ∀ v, readRef ((s ++ [readRef s r]).set s.length v) r
        = readRef (s ++ [readRef s r]) r := by
      intro v
      have hne : s.length ≠ r := (Nat.ne_of_lt hr).symm
      simp only [readRef, List.getD_eq_getElem?_getD, List.getElem?_set_ne hne]
    have hwrite_eq : ∀ v, readRef ((s ++ [readRef s r]).set s.length v) s.length = v := by
      intro v
      have hlt : s.length < (s ++ [readRef s r]).length := by simp
      simp [readRef, List.getD_eq_getElem?_getD, List.getElem?_set_self, hlt]
    refine ⟨?_, ?_⟩
    · simp only [computeQuantilesS, if_neg hc, alloc, writeRef]
      rw [hwrite_ne, hold]
    · simp only [computeQuantilesS, if_neg hc, alloc, writeRef, hfresh, hwrite_eq]
      rw [computeQuantiles, if_neg hc]

/-- Witness for C10 on a two-cell store. -/
theorem computeQuantilesS_no_mutation_witness :
    readRef (computeQuantilesS [[9, 2], [5]] 0).1 0 = readRef [[9, 2], [5]] 0
    ∧ (computeQuantilesS [[9, 2], [5]] 0).2 = computeQuantiles (readRef [[9, 2], [5]] 0) :=
  computeQuantilesS_no_mutation [[9, 2], [5]] 0 (by decide)

/-- Witness for C3 at `values = [4, 1, 7]`. -/
theorem computeQuantiles_monotone_witness :
    ((computeQuantiles [4, 1, 7]).q0 ≤ (computeQuantiles [4, 1, 7]).q1
      ∧ (computeQuantiles [4, 1, 7]).q1 ≤ (computeQuantiles [4, 1, 7]).q2
      ∧ (computeQuantiles [4, 1, 7]).q2 ≤ (computeQuantiles [4, 1, 7]).q3
      ∧ (computeQuantiles [4, 1, 7]).q3 ≤ (computeQuantiles [4, 1, 7]).q4)
    ∧ (computeQuantiles [4, 1, 7]).q0 ∈ ([4, 1, 7] : List Nat)
    ∧ ∀ x ∈ ([4, 1, 7] : List Nat), (computeQuantiles [4, 1, 7]).q0 ≤ x :=
  computeQuantiles_monotone [4, 1, 7] (by decide)

end KilterHeatmap
